import Mathlib

/-!
Verification of the amiibo/skylanders static-data build pipeline
(`scripts/build-data.mjs`).

The embedding models the JSON-compatible values the pipeline manipulates.
Record fields parsed from JSON are either absent (`Option.none`, the JS
`undefined` case for a missing key) or hold a `JsVal`.  JSON source files
cannot contain `NaN` or `Infinity`, so every numeric field of a parsed
record is a finite number; numbers are modelled as integers, which covers
every value the claims exercise.  JS `??` (nullish coalescing) treats both
`undefined` and `null` as missing, which the model mirrors with
`jsNullish`.
-/

/-- A JSON-compatible primitive value as produced by `JSON.parse` for a
record field (objects and arrays nested inside record fields play no role
in any of the modelled operations). -/
inductive JsVal where
  | null : JsVal
  | bool (b : Bool) : JsVal
  | num (n : Int) : JsVal
  | str (s : String) : JsVal
deriving DecidableEq, Repr

/-- A catalog record as the pipeline sees it: a JS object whose fields are
each either absent or a `JsVal`.  The declared fields are exactly the keys
`build-data.mjs` reads or writes. -/
structure JsEntry where
  type : Option JsVal := none
  head : Option JsVal := none
  tail : Option JsVal := none
  figureId : Option JsVal := none
  variant : Option JsVal := none
  sig : Option JsVal := none
  amiiboSeries : Option JsVal := none
  character : Option JsVal := none
  gameSeries : Option JsVal := none
  gameSeriesName : Option JsVal := none
  game : Option JsVal := none
  name : Option JsVal := none
  image : Option JsVal := none
deriving DecidableEq, Repr

/-- JS nullish coalescing `v ?? d`: the default is taken when the field is
absent (`undefined`) or `null`. -/
def jsNullish (v : Option JsVal) (d : JsVal) : JsVal :=
  match v with
  | none => d
  | some JsVal.null => d
  | some x => x

/-- JS template-literal stringification of a primitive, as in
`` `${head}-${tail}` ``. -/
def jsTmpl : JsVal → String
  | JsVal.null => "null"
  | JsVal.bool true => "true"
  | JsVal.bool false => "false"
  | JsVal.num n => toString n
  | JsVal.str s => s

/-! ## Image path normalizer (`normalizeImagePath`, build-data.mjs:64-79)

The source first coerces a non-string `entry.image` to `""`, returns `""`
for a falsy (empty) string, replaces every backslash with a forward slash,
returns the string unchanged when it starts with `"images/"`, and
otherwise re-roots the POSIX basename under `"images/"` (returning `""`
when the basename is empty).  The functions below operate on the
character list of the string. -/

/-- The character-level effect of `image.replaceAll("\\", "/")`. -/
def repBS (l : List Char) : List Char :=
  l.map fun c => if c = '\\' then '/' else c

/-- Boolean prefix test on character lists, the effect of
`posixish.startsWith("images/")`. -/
def listHasPre : List Char → List Char → Bool
  | [], _ => true
  | _ :: _, [] => false
  | p :: ps, c :: cs => p = c && listHasPre ps cs

/-- Characters of the distribution image-root marker `"images/"`. -/
def imagesPre : List Char := ['i', 'm', 'a', 'g', 'e', 's', '/']

/-- Node `path.posix.basename`: ignore trailing slashes, then keep the
final slash-separated segment. -/
def dropTrailSlash (l : List Char) : List Char :=
  (l.reverse.dropWhile fun c => c = '/').reverse

/-- Final slash-free segment of a character list. -/
def lastSeg (l : List Char) : List Char :=
  (l.reverse.takeWhile fun c => c ≠ '/').reverse

/-- POSIX basename on character lists. -/
def baseNameL (l : List Char) : List Char :=
  lastSeg (dropTrailSlash l)

/-- Core of `normalizeImagePath` on the characters of the image string. -/
def normImgL (l : List Char) : List Char :=
  if l = [] then []
  else
    let p := repBS l
    if listHasPre imagesPre p then p
    else if baseNameL p = [] then []
    else imagesPre ++ baseNameL p

/-- The string read from `entry.image` by
`typeof entry.image === "string" ? entry.image : ""`. -/
def jsImageStr (e : JsEntry) : String :=
  match e.image with
  | some (JsVal.str s) => s
  | _ => ""

/-- `normalizeImagePath(entry)` from build-data.mjs:64-79. -/
def normalizeImagePath (e : JsEntry) : String :=
  String.mk (normImgL (jsImageStr e).data)

/-- `normalizeImagePath` applied to a bare string wrapped as the `image`
field of a record, the composition the idempotence property quantifies
over. -/
def normImgStr (s : String) : String :=
  String.mk (normImgL s.data)

example : normImgStr "foo.png" = "images/foo.png" := by decide
example : normImgStr "images/sub/bar.png" = "images/sub/bar.png" := by decide
example : normImgStr "a\\b\\c.png" = "images/c.png" := by decide
example : normImgStr "images\\sub\\bar.png" = "images/sub/bar.png" := by decide
example : normImgStr "" = "" := by decide
example : normImgStr "/" = "" := by decide
example : normImgStr "dir/sub/c.png" = "images/c.png" := by decide

theorem repBS_noBS (l : List Char) : '\\' ∉ repBS l := by
  intro h
  obtain ⟨a, _, hfa⟩ := List.mem_map.1 h
  by_cases ha : a = '\\'
  · simp [ha] at hfa
  · simp [ha] at hfa

theorem repBS_of_noBS : ∀ l : List Char, '\\' ∉ l → repBS l = l := by
  intro l h
  induction l with
  | nil => rfl
  | cons a t ih =>
    have ha : a ≠ '\\' := fun hc => h (hc ▸ List.mem_cons_self a t)
    have ht : '\\' ∉ t := fun hc => h (List.mem_cons_of_mem a hc)
    simp only [repBS, List.map_cons, if_neg ha]
    exact congrArg (a :: ·) (ih ht)

theorem listHasPre_iff (p : List Char) : ∀ l, listHasPre p l = true ↔ ∃ r, l = p ++ r := by
  induction p with
  | nil =>
    intro l
    simp [listHasPre]
  | cons a ps ih =>
    intro l
    cases l with
    | nil =>
      simp [listHasPre]
    | cons c cs =>
      simp only [listHasPre, Bool.and_eq_true, decide_eq_true_eq, ih cs,
        List.cons_append, List.cons.injEq]
      constructor
      · rintro ⟨hac, r, hr⟩
        exact ⟨r, hac.symm, hr⟩
      · rintro ⟨r, hca, hr⟩
        exact ⟨hca.symm, r, hr⟩

theorem listHasPre_append (p r : List Char) : listHasPre p (p ++ r) = true :=
  (listHasPre_iff p (p ++ r)).2 ⟨r, rfl⟩

theorem mem_of_mem_takeWhile {p : Char → Bool} :
    ∀ {l : List Char} {c : Char}, c ∈ l.takeWhile p → c ∈ l := by
  intro l
  induction l with
  | nil => intro c h; exact absurd h (by simp)
  | cons a t ih =>
    intro c h
    by_cases hp : p a
    · rw [List.takeWhile_cons_of_pos hp] at h
      rcases List.mem_cons.1 h with h | h
      · exact h ▸ List.mem_cons_self a t
      · exact List.mem_cons_of_mem a (ih h)
    · rw [List.takeWhile_cons_of_neg hp] at h
      exact absurd h (by simp)

theorem mem_of_mem_dropWhile {p : Char → Bool} :
    ∀ {l : List Char} {c : Char}, c ∈ l.dropWhile p → c ∈ l := by
  intro l
  induction l with
  | nil => intro c h; exact absurd h (by simp)
  | cons a t ih =>
    intro c h
    by_cases hp : p a
    · rw [List.dropWhile_cons_of_pos hp] at h
      exact List.mem_cons_of_mem a (ih h)
    · rw [List.dropWhile_cons_of_neg hp] at h
      exact h

theorem baseNameL_subset {c : Char} {l : List Char} (h : c ∈ baseNameL l) : c ∈ l := by
  unfold baseNameL lastSeg dropTrailSlash at h
  rw [List.mem_reverse] at h
  have h1 := List.mem_reverse.1 (List.mem_reverse.1 (mem_of_mem_takeWhile h))
  exact List.mem_reverse.1 (mem_of_mem_dropWhile h1)

theorem normImg_noBS (l : List Char) : '\\' ∉ normImgL l := by
  unfold normImgL
  by_cases h0 : l = []
  · simp [h0]
  · simp only [if_neg h0]
    by_cases h1 : listHasPre imagesPre (repBS l) = true
    · simpa [h1] using repBS_noBS l
    · simp only [h1, if_false]
      by_cases h2 : baseNameL (repBS l) = []
      · simp [h2]
      · simp only [if_neg h2]
        intro hmem
        rcases List.mem_append.1 hmem with h | h
        · simp [imagesPre] at h
        · exact repBS_noBS l (baseNameL_subset h)

theorem normImg_shape (l : List Char) :
    normImgL l = [] ∨ listHasPre imagesPre (normImgL l) = true := by
  unfold normImgL
  by_cases h0 : l = []
  · simp [h0]
  · simp only [if_neg h0]
    by_cases h1 : listHasPre imagesPre (repBS l) = true
    · simp [h1]
    · simp only [h1, if_false]
      by_cases h2 : baseNameL (repBS l) = []
      · simp [h2]
      · simp [h2, listHasPre_append]

theorem normImg_fixed {r : List Char} (hbs : '\\' ∉ r)
    (hpre : listHasPre imagesPre r = true) : normImgL r = r := by
  have hne : r ≠ [] := by
    rintro rfl
    simp [listHasPre, imagesPre] at hpre
  unfold normImgL
  rw [if_neg hne, repBS_of_noBS r hbs, if_pos hpre]

theorem normImg_idem (l : List Char) : normImgL (normImgL l) = normImgL l := by
  rcases normImg_shape l with h | h
  · rw [h]; rfl
  · exact normImg_fixed (normImg_noBS l) h

/-- C7: `normalizeImagePath` is idempotent on every string: normalizing an
already-normalized image reference is a no-op. -/
theorem normalizeImagePath_idempotent (s : String) :
    normImgStr (normImgStr s) = normImgStr s := by
  unfold normImgStr
  exact congrArg String.mk (normImg_idem s.data)

/-- C6: the image path normalizer, for every record: an absent, null,
boolean, numeric or empty-string reference normalizes to the empty
string; a reference that after backslash replacement starts with the
"images/" marker is kept whole, sub-path included; any other reference
keeps only its final path segment re-rooted under "images/" (empty when
there is no segment); and the output never contains a backslash. -/
theorem normalizeImagePath_spec (e : JsEntry) :
    ((e.image = none ∨ e.image = some JsVal.null ∨
        (∃ b, e.image = some (JsVal.bool b)) ∨
        (∃ n, e.image = some (JsVal.num n)) ∨
        e.image = some (JsVal.str "")) → normalizeImagePath e = "") ∧
    (∀ s t, e.image = some (JsVal.str s) → repBS s.data = imagesPre ++ t →
        (normalizeImagePath e).data = imagesPre ++ t) ∧
    (∀ s, e.image = some (JsVal.str s) → s ≠ "" →
        (∀ t, repBS s.data ≠ imagesPre ++ t) →
        (normalizeImagePath e).data =
          if baseNameL (repBS s.data) = [] then []
          else imagesPre ++ baseNameL (repBS s.data)) ∧
    '\\' ∉ (normalizeImagePath e).data := by
  refine ⟨?_, ?_, ?_, ?_⟩
  · rintro (h | h | ⟨b, h⟩ | ⟨n, h⟩ | h) <;>
      simp [normalizeImagePath, jsImageStr, h, normImgL]
  · intro s t himg hrep
    have hs : jsImageStr e = s := by simp [jsImageStr, himg]
    have hne : s.data ≠ [] := by
      intro hnil
      rw [hnil] at hrep
      exact absurd hrep.symm (by simp [repBS, imagesPre])
    have hpre : listHasPre imagesPre (repBS s.data) = true :=
      (listHasPre_iff imagesPre _).2 ⟨t, hrep⟩
    simp only [normalizeImagePath, hs, normImgL, if_neg hne, hpre, if_true]
    exact hrep
  · intro s himg hsne hnot
    have hs : jsImageStr e = s := by simp [jsImageStr, himg]
    have hne : s.data ≠ [] := fun hnil => hsne (by
      cases s with
      | mk d => simp at hnil; simp [hnil])
    have hpre : ¬ listHasPre imagesPre (repBS s.data) = true := by
      intro hp
      obtain ⟨r, hr⟩ := (listHasPre_iff imagesPre _).1 hp
      exact hnot r hr
    simp only [normalizeImagePath, hs, normImgL, if_neg hne, hpre, if_false]
    by_cases h2 : baseNameL (repBS s.data) = [] <;> simp [h2]
  · exact normImg_noBS _

/-- Closed instances discharging the hypotheses of
`normalizeImagePath_spec`: a numeric reference gives the empty string and
an "images/"-rooted reference with backslashes keeps its sub-path. -/
theorem normalizeImagePath_spec_witness :
    normalizeImagePath { image := some (JsVal.num 3) } = "" ∧
    (normalizeImagePath { image := some (JsVal.str "images\\sub\\bar.png") }).data =
      imagesPre ++ "sub/bar.png".data := by
  constructor
  · exact (normalizeImagePath_spec _).1 (Or.inr (Or.inr (Or.inr (Or.inl ⟨3, rfl⟩))))
  · exact (normalizeImagePath_spec _).2.1 "images\\sub\\bar.png" "sub/bar.png".data rfl
      (by decide)

/-! ## Patch record classification (`loadPatchEntriesAndImageDirs`,
build-data.mjs:204-213)

The source computes `(e?.type ?? "").toLowerCase()` — calling
`toLowerCase` on a non-string, non-nullish value raises a `TypeError` —
and then classifies the record as a skylander when the lowercased tag
equals `"skylander"` or when any of `figureId`, `variant`, `sig` holds a
number; every other record is an amiibo.  `Char.toLower` models the
ASCII case folding that the relevant tag values exercise. -/

/-- The two record namespaces of the pipeline. -/
inductive Namespace where
  | amiibo : Namespace
  | skylander : Namespace
deriving DecidableEq, Repr

/-- A JS runtime error surfaced by the modelled fragments. -/
inductive JsErr where
  | typeError : JsErr
deriving DecidableEq, Repr

/-- JS `String.prototype.toLowerCase` restricted to the ASCII range the
pipeline's tag values use. -/
def jsToLowerStr (s : String) : String :=
  String.mk (s.data.map Char.toLower)

/-- The evaluation of `(e?.type ?? "").toLowerCase()`: a `TypeError` when
the record's `type` is present, non-null and not a string. -/
def typeLower (e : JsEntry) : Except JsErr String :=
  match jsNullish e.type (JsVal.str "") with
  | JsVal.str s => Except.ok (jsToLowerStr s)
  | _ => Except.error JsErr.typeError

/-- The test `typeof e?.f === "number"` on a record field. -/
def isNumField (v : Option JsVal) : Bool :=
  match v with
  | some (JsVal.num _) => true
  | _ => false

/-- The namespace classification of one patch record
(build-data.mjs:204-213). -/
def classifyPatchEntry (e : JsEntry) : Except JsErr Namespace :=
  match typeLower e with
  | Except.error er => Except.error er
  | Except.ok ty =>
    if ty = "skylander" || isNumField e.figureId || isNumField e.variant
        || isNumField e.sig then
      Except.ok Namespace.skylander
    else
      Except.ok Namespace.amiibo

example : classifyPatchEntry { type := some (JsVal.str "SkyLander") } =
    Except.ok Namespace.skylander := rfl
example : classifyPatchEntry { type := some (JsVal.num 5) } =
    Except.error JsErr.typeError := rfl
example : classifyPatchEntry {} = Except.ok Namespace.amiibo := rfl

/-- A patch record declaring the amiibo tag while also carrying a numeric
`figureId`. -/
def entryAmiiboTagNumeric : JsEntry :=
  { type := some (JsVal.str "amiibo"), figureId := some (JsVal.num 5) }

/-- A patch record with numeric `figureId` and `variant` and no tag. -/
def entryFigureVariant : JsEntry :=
  { figureId := some (JsVal.num 1200), variant := some (JsVal.num 0) }

/-- A patch record with only `head` and `tail` string fields. -/
def entryHeadTail : JsEntry :=
  { head := some (JsVal.str "04"), tail := some (JsVal.str "0123456789abcdef") }

/-- C3 counterexample: a record whose `type` field equals `"amiibo"` but
which carries a numeric `figureId` classifies as skylander, not amiibo —
the declared tag does not take precedence over numeric-field sniffing. -/
theorem classify_amiibo_tag_numeric_counterexample :
    classifyPatchEntry entryAmiiboTagNumeric = Except.ok Namespace.skylander ∧
    Namespace.skylander ≠ Namespace.amiibo := by
  constructor
  · rfl
  · decide

/-- C3 amended: classification is total on records whose `type` field is
absent, null, or a string (a non-string tag raises a `TypeError`), and a
record is a skylander exactly when its lowercased tag is `"skylander"` or
it carries a numeric `figureId`, `variant`, or `sig`; there is no tag
precedence, so `type: "amiibo"` with a numeric `figureId` still
classifies as skylander, while the two documented examples classify as
skylander and amiibo respectively. -/
theorem classifyPatchEntry_spec :
    classifyPatchEntry entryFigureVariant = Except.ok Namespace.skylander ∧
    classifyPatchEntry entryHeadTail = Except.ok Namespace.amiibo ∧
    classifyPatchEntry entryAmiiboTagNumeric = Except.ok Namespace.skylander ∧
    classifyPatchEntry { type := some (JsVal.num 5) } =
      Except.error JsErr.typeError ∧
    (∀ e : JsEntry,
      (e.type = none ∨ e.type = some JsVal.null ∨
        (∃ s, e.type = some (JsVal.str s))) →
      ∃ ns, classifyPatchEntry e = Except.ok ns) := by
  refine ⟨rfl, rfl, rfl, rfl, ?_⟩
  intro e h
  have hty : ∃ t, typeLower e = Except.ok t := by
    rcases h with h | h | ⟨s, h⟩
    · exact ⟨jsToLowerStr "", by simp [typeLower, jsNullish, h]⟩
    · exact ⟨jsToLowerStr "", by simp [typeLower, jsNullish, h]⟩
    · exact ⟨jsToLowerStr s, by simp [typeLower, jsNullish, h]⟩
  obtain ⟨t, hty⟩ := hty
  by_cases hc : (t = "skylander" || isNumField e.figureId || isNumField e.variant
      || isNumField e.sig) = true
  · exact ⟨Namespace.skylander, by simp [classifyPatchEntry, hty, hc]⟩
  · rw [Bool.not_eq_true] at hc
    exact ⟨Namespace.amiibo, by simp [classifyPatchEntry, hty, hc]⟩

/-- Closed instance of the totality part of `classifyPatchEntry_spec` at a
record with a null tag. -/
theorem classifyPatchEntry_spec_witness :
    ∃ ns, classifyPatchEntry { type := some JsVal.null } = Except.ok ns :=
  classifyPatchEntry_spec.2.2.2.2 _ (Or.inr (Or.inl rfl))

/-! ## Lite projections (`toLiteAmiibo` / `toLiteSkylander`,
build-data.mjs:81-104) and full-output normalization
(`main`, build-data.mjs:299-310) -/

/-- The lite amiibo record shape: every key the source object literal
writes, in source order. -/
structure LiteAmiibo where
  amiiboSeries : JsVal
  character : JsVal
  gameSeries : JsVal
  head : JsVal
  image : JsVal
  name : JsVal
  tail : JsVal
  type : JsVal
deriving DecidableEq, Repr

/-- The lite skylander record shape. -/
structure LiteSkylander where
  gameSeries : JsVal
  figureId : JsVal
  variant : JsVal
  sig : JsVal
  image : JsVal
  name : JsVal
  type : JsVal
deriving DecidableEq, Repr

/-- `toLiteAmiibo(entry)` from build-data.mjs:81-92. -/
def toLiteAmiibo (e : JsEntry) : LiteAmiibo :=
  { amiiboSeries := jsNullish e.amiiboSeries (JsVal.str "")
    character := jsNullish e.character (JsVal.str "")
    gameSeries := jsNullish e.gameSeries (JsVal.str "")
    head := jsNullish e.head (JsVal.str "")
    image := JsVal.str (normalizeImagePath e)
    name := jsNullish e.name (JsVal.str "")
    tail := jsNullish e.tail (JsVal.str "")
    type := jsNullish e.type (JsVal.str "amiibo") }

/-- `toLiteSkylander(entry)` from build-data.mjs:94-104; note the
`gameSeries ?? gameSeriesName ?? game ?? ""` alias chain. -/
def toLiteSkylander (e : JsEntry) : LiteSkylander :=
  { gameSeries := jsNullish e.gameSeries
      (jsNullish e.gameSeriesName (jsNullish e.game (JsVal.str "")))
    figureId := jsNullish e.figureId (JsVal.num 0)
    variant := jsNullish e.variant (JsVal.num 0)
    sig := jsNullish e.sig (JsVal.num 0)
    image := JsVal.str (normalizeImagePath e)
    name := jsNullish e.name (JsVal.str "")
    type := jsNullish e.type (JsVal.str "skylander") }

/-- A record field that JS nullish coalescing treats as missing: absent
or null. -/
def isNullish (v : Option JsVal) : Prop :=
  v = none ∨ v = some JsVal.null

/-- No field of a lite amiibo record holds the JSON null value. -/
def liteAmiiboNoNull (r : LiteAmiibo) : Prop :=
  r.amiiboSeries ≠ JsVal.null ∧ r.character ≠ JsVal.null ∧
  r.gameSeries ≠ JsVal.null ∧ r.head ≠ JsVal.null ∧ r.image ≠ JsVal.null ∧
  r.name ≠ JsVal.null ∧ r.tail ≠ JsVal.null ∧ r.type ≠ JsVal.null

/-- No field of a lite skylander record holds the JSON null value. -/
def liteSkylanderNoNull (r : LiteSkylander) : Prop :=
  r.gameSeries ≠ JsVal.null ∧ r.figureId ≠ JsVal.null ∧
  r.variant ≠ JsVal.null ∧ r.sig ≠ JsVal.null ∧ r.image ≠ JsVal.null ∧
  r.name ≠ JsVal.null ∧ r.type ≠ JsVal.null

theorem jsNullish_ne_null (v : Option JsVal) (d : JsVal)
    (hd : d ≠ JsVal.null) : jsNullish v d ≠ JsVal.null := by
  cases v with
  | none => exact hd
  | some x => cases x <;> first | exact hd | simp [jsNullish]

theorem jsNullish_of_nullish {v : Option JsVal} (d : JsVal)
    (h : isNullish v) : jsNullish v d = d := by
  rcases h with h | h <;> rw [h] <;> rfl

/-- A skylander patch record carrying only the legacy `game` alias. -/
def entryGameAlias : JsEntry := { game := some (JsVal.str "X") }

/-- C9 counterexample: when `gameSeries` is absent, the lite skylander
projection falls back to the `gameSeriesName` and `game` aliases before
the empty string, so an absent `gameSeries` is not replaced by the empty
string when an alias is present. -/
theorem lite_gameSeries_alias_counterexample :
    entryGameAlias.gameSeries = none ∧
    (toLiteSkylander entryGameAlias).gameSeries = JsVal.str "X" ∧
    JsVal.str "X" ≠ JsVal.str "" := by
  refine ⟨rfl, rfl, ?_⟩
  decide

/-- C9 amended: every field enumerated in a namespace's lite schema is
present and never null in every lite record; an absent or null source
field is replaced by the empty string or zero, except that the lite
skylander `gameSeries` first falls back to the `gameSeriesName` and
`game` aliases and only defaults to the empty string when all three are
absent or null. -/
theorem lite_projection_spec (e : JsEntry) :
    liteAmiiboNoNull (toLiteAmiibo e) ∧
    liteSkylanderNoNull (toLiteSkylander e) ∧
    (isNullish e.amiiboSeries → (toLiteAmiibo e).amiiboSeries = JsVal.str "") ∧
    (isNullish e.character → (toLiteAmiibo e).character = JsVal.str "") ∧
    (isNullish e.gameSeries → (toLiteAmiibo e).gameSeries = JsVal.str "") ∧
    (isNullish e.head → (toLiteAmiibo e).head = JsVal.str "") ∧
    (isNullish e.name → (toLiteAmiibo e).name = JsVal.str "") ∧
    (isNullish e.tail → (toLiteAmiibo e).tail = JsVal.str "") ∧
    (isNullish e.figureId → (toLiteSkylander e).figureId = JsVal.num 0) ∧
    (isNullish e.variant → (toLiteSkylander e).variant = JsVal.num 0) ∧
    (isNullish e.sig → (toLiteSkylander e).sig = JsVal.num 0) ∧
    (isNullish e.name → (toLiteSkylander e).name = JsVal.str "") ∧
    (isNullish e.gameSeries → isNullish e.gameSeriesName → isNullish e.game →
      (toLiteSkylander e).gameSeries = JsVal.str "") := by
  refine ⟨⟨?_, ?_, ?_, ?_, ?_, ?_, ?_, ?_⟩, ⟨?_, ?_, ?_, ?_, ?_, ?_, ?_⟩,
    ?_, ?_, ?_, ?_, ?_, ?_, ?_, ?_, ?_, ?_, ?_⟩
  · exact jsNullish_ne_null _ _ (by decide)
  · exact jsNullish_ne_null _ _ (by decide)
  · exact jsNullish_ne_null _ _ (by decide)
  · exact jsNullish_ne_null _ _ (by decide)
  · simp [toLiteAmiibo]
  · exact jsNullish_ne_null _ _ (by decide)
  · exact jsNullish_ne_null _ _ (by decide)
  · exact jsNullish_ne_null _ _ (by decide)
  · exact jsNullish_ne_null _ _ (jsNullish_ne_null _ _
      (jsNullish_ne_null _ _ (by decide)))
  · exact jsNullish_ne_null _ _ (by decide)
  · exact jsNullish_ne_null _ _ (by decide)
  · exact jsNullish_ne_null _ _ (by decide)
  · simp [toLiteSkylander]
  · exact jsNullish_ne_null _ _ (by decide)
  · exact jsNullish_ne_null _ _ (by decide)
  · intro h; exact jsNullish_of_nullish _ h
  · intro h; exact jsNullish_of_nullish _ h
  · intro h; exact jsNullish_of_nullish _ h
  · intro h; exact jsNullish_of_nullish _ h
  · intro h; exact jsNullish_of_nullish _ h
  · intro h; exact jsNullish_of_nullish _ h
  · intro h; exact jsNullish_of_nullish _ h
  · intro h; exact jsNullish_of_nullish _ h
  · intro h; exact jsNullish_of_nullish _ h
  · intro h; exact jsNullish_of_nullish _ h
  · intro h1 h2 h3
    show jsNullish e.gameSeries _ = JsVal.str ""
    rw [jsNullish_of_nullish _ h1, jsNullish_of_nullish _ h2,
      jsNullish_of_nullish _ h3]

/-- Closed instance of `lite_projection_spec`: a record whose `name` is
the JSON null projects to an empty-string lite name in both namespaces. -/
theorem lite_projection_spec_witness :
    (toLiteAmiibo { name := some JsVal.null }).name = JsVal.str "" ∧
    (toLiteSkylander { name := some JsVal.null }).gameSeries = JsVal.str "" := by
  constructor
  · exact (lite_projection_spec _).2.2.2.2.2.2.1 (Or.inr rfl)
  · exact (lite_projection_spec _).2.2.2.2.2.2.2.2.2.2.2.2
      (Or.inl rfl) (Or.inl rfl) (Or.inl rfl)

/-- The full-output normalization of one merged amiibo record,
`{...e, type: e.type ?? "amiibo", image: normalizeImagePath(e)}`
(build-data.mjs:300-304): the spread keeps every source field as is and
only `type` and `image` are (re)written. -/
def normalizeFullAmiibo (e : JsEntry) : JsEntry :=
  { e with
    type := some (jsNullish e.type (JsVal.str "amiibo"))
    image := some (JsVal.str (normalizeImagePath e)) }

/-- The full-output normalization of one merged skylander record
(build-data.mjs:306-310). -/
def normalizeFullSkylander (e : JsEntry) : JsEntry :=
  { e with
    type := some (jsNullish e.type (JsVal.str "skylander"))
    image := some (JsVal.str (normalizeImagePath e)) }

/-- C4 counterexample: a source amiibo record without a `name` still has
no `name` field after full-output normalization, and a source skylander
record without a `sig` still has no `sig` field — the full artifact does
not apply the documented defaults to absent declared fields. -/
theorem full_output_missing_field_counterexample :
    (normalizeFullAmiibo entryHeadTail).name = none ∧
    (normalizeFullSkylander entryFigureVariant).sig = none := by
  exact ⟨rfl, rfl⟩

/-- C4 amended: a full-output record preserves exactly the fields of the
source record — a declared field that is absent in the source stays
absent in the full artifact — and only `type` (defaulted to the
namespace name when absent or null) and `image` (replaced by the
normalized path) are always present; defaults for the other declared
fields are applied only in the lite projection. -/
theorem full_output_spec (e : JsEntry) :
    ((normalizeFullAmiibo e).type = some (jsNullish e.type (JsVal.str "amiibo")) ∧
      (normalizeFullAmiibo e).image = some (JsVal.str (normalizeImagePath e)) ∧
      (normalizeFullAmiibo e).head = e.head ∧
      (normalizeFullAmiibo e).tail = e.tail ∧
      (normalizeFullAmiibo e).name = e.name ∧
      (normalizeFullAmiibo e).amiiboSeries = e.amiiboSeries ∧
      (normalizeFullAmiibo e).character = e.character ∧
      (normalizeFullAmiibo e).gameSeries = e.gameSeries) ∧
    ((normalizeFullSkylander e).type = some (jsNullish e.type (JsVal.str "skylander")) ∧
      (normalizeFullSkylander e).image = some (JsVal.str (normalizeImagePath e)) ∧
      (normalizeFullSkylander e).figureId = e.figureId ∧
      (normalizeFullSkylander e).variant = e.variant ∧
      (normalizeFullSkylander e).sig = e.sig ∧
      (normalizeFullSkylander e).name = e.name ∧
      (normalizeFullSkylander e).gameSeries = e.gameSeries) :=
  ⟨⟨rfl, rfl, rfl, rfl, rfl, rfl, rfl, rfl⟩, ⟨rfl, rfl, rfl, rfl, rfl, rfl, rfl⟩⟩

/-! ## Duplicate validation (`validateNoDuplicates`, build-data.mjs:224-265)

The amiibo walk computes `head = e?.head ?? ""`, `tail = e?.tail ?? ""`,
joins them as the template string `` `${head}-${tail}` `` and throws
`DuplicateRecord` only when the raw `head` and `tail` values are both
strictly different from the empty string and the joined key was already
seen; the key is recorded in the seen set in every iteration.  The
skylander walk keys on `sig:<sig>` when `sig` is a finite number and on
`figureId-variant:<figureId ?? "?">-<variant ?? "?">` otherwise, with no
emptiness exemption.  A `true` result models the thrown
`DuplicateRecord`; `false` models a walk that completes silently. -/

/-- The value `e?.head ?? ""` of the amiibo duplicate walk. -/
def amiiboHeadVal (e : JsEntry) : JsVal := jsNullish e.head (JsVal.str "")

/-- The value `e?.tail ?? ""` of the amiibo duplicate walk. -/
def amiiboTailVal (e : JsEntry) : JsVal := jsNullish e.tail (JsVal.str "")

/-- The amiibo identity key `` `${head}-${tail}` ``. -/
def amiiboKeyOf (e : JsEntry) : String :=
  jsTmpl (amiiboHeadVal e) ++ "-" ++ jsTmpl (amiiboTailVal e)

/-- The guard `head !== "" && tail !== ""` (strict comparison on the raw
values, before stringification). -/
def amiiboNonEmptyId (e : JsEntry) : Bool :=
  decide (amiiboHeadVal e ≠ JsVal.str "") && decide (amiiboTailVal e ≠ JsVal.str "")

/-- The amiibo duplicate walk with its accumulated seen set. -/
def validateAmiiboGo : List String → List JsEntry → Bool
  | _, [] => false
  | seen, e :: rest =>
    if amiiboNonEmptyId e && decide (amiiboKeyOf e ∈ seen) then true
    else validateAmiiboGo (amiiboKeyOf e :: seen) rest

/-- The amiibo half of `validateNoDuplicates` (build-data.mjs:226-237). -/
def validateAmiibo (entries : List JsEntry) : Bool :=
  validateAmiiboGo [] entries

/-- The coercion `typeof x === "number" && Number.isFinite(x) ? x : null`
applied to a record field (JSON-parsed numbers are always finite). -/
def numOrNull (v : Option JsVal) : Option Int :=
  match v with
  | some (JsVal.num n) => some n
  | _ => none

/-- The skylander identity key (build-data.mjs:243-257). -/
def skyKeyOf (e : JsEntry) : String :=
  match numOrNull e.sig with
  | some n => "sig:" ++ toString n
  | none =>
    "figureId-variant:" ++
      (match numOrNull e.figureId with
       | some n => toString n
       | none => "?") ++ "-" ++
      (match numOrNull e.variant with
       | some n => toString n
       | none => "?")

/-- The skylander duplicate walk with its accumulated seen set. -/
def validateSkyGo : List String → List JsEntry → Bool
  | _, [] => false
  | seen, e :: rest =>
    if skyKeyOf e ∈ seen then true
    else validateSkyGo (skyKeyOf e :: seen) rest

/-- The skylander half of `validateNoDuplicates`
(build-data.mjs:239-264). -/
def validateSkylanders (entries : List JsEntry) : Bool :=
  validateSkyGo [] entries

/-- `validateNoDuplicates({amiiboEntries, skylanderEntries})`: the build
aborts with `DuplicateRecord` when either namespace walk throws. -/
def validateNoDuplicates (amiiboEntries skylanderEntries : List JsEntry) : Bool :=
  validateAmiibo amiiboEntries || validateSkylanders skylanderEntries

/-- Membership is invariant under rotating an element between the seen
set and the trailing keys. -/
theorem mem_cons_append_comm {x b : String} (s t : List String) :
    x ∈ (b :: s) ++ t ↔ x ∈ s ++ (b :: t) := by
  simp only [List.cons_append, List.mem_cons, List.mem_append]
  tauto

theorem validateAmiiboGo_iff : ∀ (l : List JsEntry) (seen : List String),
    validateAmiiboGo seen l = true ↔
      ∃ p e s, l = p ++ e :: s ∧ amiiboNonEmptyId e = true ∧
        amiiboKeyOf e ∈ seen ++ p.map amiiboKeyOf := by
  intro l
  induction l with
  | nil =>
    intro seen
    constructor
    · intro h
      simp [validateAmiiboGo] at h
    · rintro ⟨p, e, s, hl, -, -⟩
      exact absurd hl.symm (List.append_ne_nil_of_right_ne_nil p (by simp))
  | cons a rest ih =>
    intro seen
    by_cases hC : (amiiboNonEmptyId a && decide (amiiboKeyOf a ∈ seen)) = true
    · simp only [validateAmiiboGo, if_pos hC]
      have hC' : amiiboNonEmptyId a = true ∧ amiiboKeyOf a ∈ seen := by
        simpa using hC
      refine iff_of_true trivial ⟨[], a, rest, rfl, hC'.1, ?_⟩
      simpa using hC'.2
    · simp only [validateAmiiboGo, if_neg hC]
      rw [ih (amiiboKeyOf a :: seen)]
      constructor
      · rintro ⟨p, e, s, hl, hne, hmem⟩
        exact ⟨a :: p, e, s, by rw [hl]; rfl, hne,
          by simpa using (mem_cons_append_comm seen (p.map amiiboKeyOf)).1 hmem⟩
      · rintro ⟨p, e, s, hl, hne, hmem⟩
        cases p with
        | nil =>
          exfalso
          rcases List.cons.injEq .. ▸ hl with ⟨rfl, -⟩
          simp only [List.nil_append, List.map_nil, List.append_nil] at hmem
          exact hC (by simp [hne, hmem])
        | cons a' p' =>
          rcases List.cons.injEq .. ▸ hl with ⟨rfl, hrest⟩
          refine ⟨p', e, s, hrest, hne, ?_⟩
          rw [mem_cons_append_comm]
          simpa using hmem

/-- C1 counterexample: a catalog repeating the identity pair
(head = "04", tail = "") — exactly one component empty — passes merge
validation silently instead of raising `DuplicateRecord`, both in the
amiibo walk and in the combined validator. -/
def entryHeadOnly : JsEntry :=
  { head := some (JsVal.str "04"), tail := some (JsVal.str "") }

/-- The repeated pair with one empty component does not raise. -/
theorem amiibo_one_empty_duplicate_counterexample :
    validateNoDuplicates [entryHeadOnly, entryHeadOnly] [] = false := by
  decide

/-- C1 amended: the amiibo merge validation fails with `DuplicateRecord`
exactly when the catalog splits as `p ++ e :: s` where the defaulted
`head` and `tail` of `e` are both values other than the empty string and
the joined key `head-"-"-tail` of `e` already occurs among the joined
keys of `p`.  In particular a repeated pair with exactly one empty
component never raises, and two distinct pairs whose components join to
the same dashed string do collide. -/
theorem validateAmiibo_iff (entries : List JsEntry) :
    validateAmiibo entries = true ↔
      ∃ p e s, entries = p ++ e :: s ∧ amiiboNonEmptyId e = true ∧
        amiiboKeyOf e ∈ p.map amiiboKeyOf := by
  rw [validateAmiibo, validateAmiiboGo_iff entries []]
  simp only [List.nil_append]

/-- A field without a numeric value coerces to null in the skylander
identity computation. -/
theorem numOrNull_eq_none {v : Option JsVal} (h : isNumField v = false) :
    numOrNull v = none := by
  rcases v with - | x
  · rfl
  · rcases x with - | b | n | s
    · rfl
    · rfl
    · simp [isNumField] at h
    · rfl

/-- When a record lacks a numeric `sig`, `figureId` and `variant`, its
skylander identity key is the shared fallback key. -/
theorem skyKeyOf_fallback {e : JsEntry} (h1 : isNumField e.sig = false)
    (h2 : isNumField e.figureId = false) (h3 : isNumField e.variant = false) :
    skyKeyOf e = "figureId-variant:?-?" := by
  rw [skyKeyOf, numOrNull_eq_none h1, numOrNull_eq_none h2, numOrNull_eq_none h3]
  rfl

/-- The skylander walk throws as soon as an entry's key already occurs
among the seen set or the keys of the entries before it. -/
theorem validateSkyGo_of_mem :
    ∀ (p : List JsEntry) (e : JsEntry) (s : List JsEntry) (seen : List String),
      skyKeyOf e ∈ seen ++ p.map skyKeyOf →
      validateSkyGo seen (p ++ e :: s) = true := by
  intro p
  induction p with
  | nil =>
    intro e s seen hmem
    simp only [List.map_nil, List.append_nil] at hmem
    simp [validateSkyGo, hmem]
  | cons a p' ih =>
    intro e s seen hmem
    by_cases ha : skyKeyOf a ∈ seen
    · simp [validateSkyGo, ha]
    · simp only [List.cons_append, validateSkyGo, if_neg ha]
      refine ih e s (skyKeyOf a :: seen) ?_
      rw [mem_cons_append_comm]
      simpa using hmem

/-- C10: the skylander namespace has no "no identity yet" exemption — in
any catalog two records that each lack a numeric `sig`, `figureId` and
`variant` share the fallback identity key, and the merge validation
throws `DuplicateRecord` (both in the skylander walk and in the combined
validator with an empty amiibo catalog). -/
theorem skylander_missing_identity_duplicate
    (p m s : List JsEntry) (e1 e2 : JsEntry)
    (h1s : isNumField e1.sig = false) (h1f : isNumField e1.figureId = false)
    (h1v : isNumField e1.variant = false)
    (h2s : isNumField e2.sig = false) (h2f : isNumField e2.figureId = false)
    (h2v : isNumField e2.variant = false) :
    skyKeyOf e1 = "figureId-variant:?-?" ∧
    skyKeyOf e2 = "figureId-variant:?-?" ∧
    validateSkylanders (p ++ e1 :: (m ++ e2 :: s)) = true ∧
    validateNoDuplicates [] (p ++ e1 :: (m ++ e2 :: s)) = true := by
  have k1 := skyKeyOf_fallback h1s h1f h1v
  have k2 := skyKeyOf_fallback h2s h2f h2v
  have hsplit : p ++ e1 :: (m ++ e2 :: s) = (p ++ e1 :: m) ++ e2 :: s := by
    simp [List.append_assoc]
  have hsky : validateSkylanders (p ++ e1 :: (m ++ e2 :: s)) = true := by
    rw [validateSkylanders, hsplit]
    refine validateSkyGo_of_mem (p ++ e1 :: m) e2 s [] ?_
    simp [k1, k2]
  refine ⟨k1, k2, hsky, ?_⟩
  simp [validateNoDuplicates, hsky]

/-- A skylander patch record identified only by its type tag. -/
def entrySkyTagOnly : JsEntry := { type := some (JsVal.str "skylander") }

/-- Closed instance of `skylander_missing_identity_duplicate`: two
tag-only skylander records collide on the fallback key. -/
theorem skylander_missing_identity_duplicate_witness :
    skyKeyOf entrySkyTagOnly = "figureId-variant:?-?" ∧
    validateSkylanders [entrySkyTagOnly, entrySkyTagOnly] = true := by
  have h := skylander_missing_identity_duplicate [] [] [] entrySkyTagOnly
    entrySkyTagOnly rfl rfl rfl rfl rfl rfl
  exact ⟨h.1, h.2.2.1⟩

/-! ## Patch image directory discovery
(`loadPatchEntriesAndImageDirs`, build-data.mjs:180-192)

The source lists every file under the patches root, splits each file
path into separator components, finds the last component equal to
`"images"`, and adds the path prefix up to and including that component
to a deduplicating set.  Paths are modelled as component lists and the
patch tree as a list of directory-tree nodes under a root path. -/

/-- A node of the on-disk patch tree. -/
inductive FsTree where
  | file (nm : String) : FsTree
  | dir (nm : String) (children : List FsTree) : FsTree

mutual
/-- `listFilesRecursive` (build-data.mjs:125-134) from a tree node. -/
def crawlTree : List String → FsTree → List (List String)
  | pre, FsTree.file nm => [pre ++ [nm]]
  | pre, FsTree.dir nm cs => crawlForest (pre ++ [nm]) cs

/-- `listFilesRecursive` over the children of one directory. -/
def crawlForest : List String → List FsTree → List (List String)
  | _, [] => []
  | pre, t :: ts => crawlTree pre t ++ crawlForest pre ts
end

/-- JS `Array.prototype.lastIndexOf` on path components
(`parts.lastIndexOf("images")`), as an optional index. -/
def jsLastIndexOf (x : String) : List String → Option Nat
  | [] => none
  | a :: rest =>
    match jsLastIndexOf x rest with
    | some i => some (i + 1)
    | none => if a = x then some 0 else none

/-- `parts.slice(0, idx + 1).join(sep)` guarded by `idx !== -1`
(build-data.mjs:186-190). -/
def imageDirOfFile (f : List String) : Option (List String) :=
  (jsLastIndexOf "images" f).map fun i => f.take (i + 1)

/-- JS `Set.prototype.add`: insertion-ordered and deduplicating. -/
def addUnique (acc : List (List String)) (d : List String) : List (List String) :=
  if d ∈ acc then acc else acc ++ [d]

/-- The set `patchImageDirs` accumulated over all listed files
(build-data.mjs:183-192). -/
def collectImageDirs (files : List (List String)) : List (List String) :=
  files.foldl (fun acc f =>
    match imageDirOfFile f with
    | none => acc
    | some d => addUnique acc d) []

mutual
/-- All directories named `x` anywhere in the tree, as full paths — the
collection the specification describes. -/
def dirsNamedTree (x : String) : List String → FsTree → List (List String)
  | _, FsTree.file _ => []
  | pre, FsTree.dir nm cs =>
    (if nm = x then [pre ++ [nm]] else []) ++ dirsNamedForest x (pre ++ [nm]) cs

/-- All directories named `x` in a forest of trees. -/
def dirsNamedForest (x : String) : List String → List FsTree → List (List String)
  | _, [] => []
  | pre, t :: ts => dirsNamedTree x pre t ++ dirsNamedForest x pre ts
end

/-- C5 counterexample: a patch tree whose only content is an empty
directory named "images" has that directory in the specified set, but
the code collects nothing because no file path passes through it. -/
theorem image_dirs_empty_dir_counterexample :
    dirsNamedForest "images" ["patches"] [FsTree.dir "images" []] =
      [["patches", "images"]] ∧
    collectImageDirs (crawlForest ["patches"] [FsTree.dir "images" []]) = [] := by
  exact ⟨rfl, rfl⟩

theorem addUnique_mem (acc : List (List String)) (d x : List String) :
    x ∈ addUnique acc d ↔ x ∈ acc ∨ x = d := by
  unfold addUnique
  by_cases h : d ∈ acc
  · simp only [if_pos h]
    constructor
    · exact Or.inl
    · rintro (hx | rfl)
      · exact hx
      · exact h
  · simp [if_neg h]

theorem jsLastIndexOf_none_iff (x : String) :
    ∀ l, jsLastIndexOf x l = none ↔ x ∉ l := by
  intro l
  induction l with
  | nil => simp [jsLastIndexOf]
  | cons a rest ih =>
    unfold jsLastIndexOf
    cases h : jsLastIndexOf x rest with
    | some i =>
      simp only []
      constructor
      · intro hc; exact absurd hc (by simp)
      · intro hc
        exact absurd (ih.2 fun hm => hc (List.mem_cons_of_mem a hm)) (by simp [h])
    | none =>
      have hrest : x ∉ rest := ih.1 h
      by_cases ha : a = x
      · simp [ha]
      · simp only [if_neg ha]
        refine iff_of_true (by simp) ?_
        intro hm
        rcases List.mem_cons.1 hm with hc | hc
        · exact ha hc.symm
        · exact hrest hc

theorem jsLastIndexOf_some_iff (x : String) :
    ∀ l i, jsLastIndexOf x l = some i ↔
      ∃ pr sf, l = pr ++ x :: sf ∧ pr.length = i ∧ x ∉ sf := by
  intro l
  induction l with
  | nil =>
    intro i
    constructor
    · intro h; exact absurd h (by simp [jsLastIndexOf])
    · rintro ⟨pr, sf, hl, -, -⟩
      exact absurd hl.symm (List.append_ne_nil_of_right_ne_nil pr (by simp))
  | cons a rest ih =>
    intro i
    unfold jsLastIndexOf
    cases h : jsLastIndexOf x rest with
    | some j =>
      obtain ⟨pr', sf', hrest, hlen, hnot⟩ := (ih j).1 h
      have hxrest : x ∈ rest := by rw [hrest]; simp
      constructor
      · intro hsome
        have hij : i = j + 1 := by
          have := Option.some.injEq .. ▸ hsome
          omega
        exact ⟨a :: pr', sf', by rw [hrest]; rfl, by simp [hlen, hij], hnot⟩
      · rintro ⟨pr, sf, hl, hplen, hnsf⟩
        cases pr with
        | nil =>
          rcases List.cons.injEq .. ▸ hl with ⟨-, rfl⟩
          exact absurd hxrest hnsf
        | cons a2 pr2 =>
          rcases List.cons.injEq .. ▸ hl with ⟨-, hrest2⟩
          have hj2 : jsLastIndexOf x rest = some pr2.length :=
            (ih pr2.length).2 ⟨pr2, sf, hrest2, rfl, hnsf⟩
          rw [h] at hj2
          have : j = pr2.length := by
            have := Option.some.injEq .. ▸ hj2
            omega
          simp only [List.length_cons] at hplen
          simp [← hplen, this]
    | none =>
      have hrest : x ∉ rest := (jsLastIndexOf_none_iff x rest).1 h
      by_cases ha : a = x
      · simp only [if_pos ha]
        constructor
        · intro hsome
          have hi : i = 0 := by
            have := Option.some.injEq .. ▸ hsome
            omega
          exact ⟨[], rest, by simp [ha], by simp [hi], hrest⟩
        · rintro ⟨pr, sf, hl, hplen, hnsf⟩
          cases pr with
          | nil => simp at hplen; simp [hplen]
          | cons a2 pr2 =>
            rcases List.cons.injEq .. ▸ hl with ⟨-, hrest2⟩
            exact absurd (by rw [hrest2]; simp : x ∈ rest) hrest
      · simp only [if_neg ha]
        constructor
        · intro hc; exact absurd hc (by simp)
        · rintro ⟨pr, sf, hl, hplen, hnsf⟩
          cases pr with
          | nil =>
            rcases List.cons.injEq .. ▸ hl with ⟨hax, -⟩
            exact absurd hax ha
          | cons a2 pr2 =>
            rcases List.cons.injEq .. ▸ hl with ⟨-, hrest2⟩
            exact absurd (by rw [hrest2]; simp : x ∈ rest) hrest

theorem take_after_last (pr sf : List String) (x : String) :
    List.take (pr.length + 1) (pr ++ x :: sf) = pr ++ [x] := by
  rw [List.take_append_eq_append_take]
  congr 1
  · exact List.take_of_length_le (by omega)
  · have hl : pr.length + 1 - pr.length = 1 := by omega
    rw [hl]
    rfl

theorem imageDirOfFile_eq_some_iff (f d : List String) :
    imageDirOfFile f = some d ↔
      ∃ pr sf, f = pr ++ "images" :: sf ∧ "images" ∉ sf ∧ d = pr ++ ["images"] := by
  unfold imageDirOfFile
  constructor
  · intro h
    rcases Option.map_eq_some'.1 h with ⟨i, hi, hd⟩
    obtain ⟨pr, sf, hf, hlen, hnot⟩ := (jsLastIndexOf_some_iff "images" f i).1 hi
    refine ⟨pr, sf, hf, hnot, ?_⟩
    rw [← hd, hf, ← hlen, take_after_last]
  · rintro ⟨pr, sf, hf, hnot, hd⟩
    have hi : jsLastIndexOf "images" f = some pr.length :=
      (jsLastIndexOf_some_iff "images" f pr.length).2 ⟨pr, sf, hf, rfl, hnot⟩
    rw [hi, Option.map_some', hf, take_after_last, hd]

theorem collectImageDirs_mem_aux (d : List String) :
    ∀ (files : List (List String)) (acc : List (List String)),
      d ∈ files.foldl (fun acc f =>
          match imageDirOfFile f with
          | none => acc
          | some d2 => addUnique acc d2) acc ↔
        d ∈ acc ∨ ∃ f ∈ files, imageDirOfFile f = some d := by
  intro files
  induction files with
  | nil => intro acc; simp
  | cons f fs ih =>
    intro acc
    rw [List.foldl_cons, ih]
    cases hf : imageDirOfFile f with
    | none =>
      simp only []
      constructor
      · rintro (h | h)
        · exact Or.inl h
        · exact Or.inr (by simpa using Or.inr (by simpa using h))
      · rintro (h | h)
        · exact Or.inl h
        · rcases List.mem_cons.1 h.choose_spec.1 with hc | hc
          · exact absurd (hc ▸ h.choose_spec.2) (by simp [hf])
          · exact Or.inr ⟨h.choose, hc, h.choose_spec.2⟩
    | some d2 =>
      simp only [addUnique_mem]
      constructor
      · rintro ((h | rfl) | h)
        · exact Or.inl h
        · exact Or.inr ⟨f, List.mem_cons_self f fs, hf⟩
        · obtain ⟨g, hg, hgd⟩ := h
          exact Or.inr ⟨g, List.mem_cons_of_mem f hg, hgd⟩
      · rintro (h | h)
        · exact Or.inl (Or.inl h)
        · obtain ⟨g, hg, hgd⟩ := h
          rcases List.mem_cons.1 hg with rfl | hg2
          · rw [hf] at hgd
            exact Or.inl (Or.inr (Option.some.injEq .. ▸ hgd).symm)
          · exact Or.inr ⟨g, hg2, hgd⟩

/-- C5 amended: for every patch tree, a path is collected as an
image-source directory exactly when it is a path ending in a component
named "images" such that some listed file lies below it with no further
"images" component between it and the file.  Directories named "images"
that contain no files outside a deeper "images" directory — in
particular empty ones — are not collected. -/
theorem collectImageDirs_spec (root : List String) (cs : List FsTree)
    (d : List String) :
    d ∈ collectImageDirs (crawlForest root cs) ↔
      ∃ pr sf, (pr ++ "images" :: sf) ∈ crawlForest root cs ∧
        "images" ∉ sf ∧ d = pr ++ ["images"] := by
  rw [collectImageDirs, collectImageDirs_mem_aux]
  simp only [List.not_mem_nil, false_or]
  constructor
  · rintro ⟨f, hfmem, hfd⟩
    obtain ⟨pr, sf, hf, hnot, hd⟩ := (imageDirOfFile_eq_some_iff f d).1 hfd
    exact ⟨pr, sf, hf ▸ hfmem, hnot, hd⟩
  · rintro ⟨pr, sf, hmem, hnot, hd⟩
    exact ⟨pr ++ "images" :: sf, hmem,
      (imageDirOfFile_eq_some_iff _ d).2 ⟨pr, sf, rfl, hnot, hd⟩⟩

/-! ## Canonical serializer (`stableJsonStringify`, build-data.mjs:28-53)

The serializer recursively rebuilds every object with its keys in sorted
order (`Object.keys(value).sort()`), maps arrays elementwise, passes
primitives through, and then emits the result with `JSON.stringify`.
This section models the serializer on tree-shaped values — acyclic
values in which no object node is shared — where the `seen` check of the
source never fires; the next section models the full traversal with the
`seen` set over a node store.  JS sorts keys by UTF-16 code units, which
for the catalog's plain-text keys coincides with the character order
used here. -/

/-- A JSON value as a finite tree: the shape of any acyclic, unshared
value reaching the serializer. -/
inductive J where
  | null : J
  | bool (b : Bool) : J
  | num (n : Int) : J
  | str (s : String) : J
  | arr (elems : List J) : J
  | obj (kvs : List (String × J)) : J

/-- Lexicographic code-point comparison of two character lists: the
default `Array.prototype.sort` string comparator of JS restricted to the
basic plane. -/
def strLeB : List Char → List Char → Bool
  | [], _ => true
  | _ :: _, [] => false
  | a :: as, b :: bs =>
    if a.toNat < b.toNat then true
    else if b.toNat < a.toNat then false
    else strLeB as bs

/-- Key order used by `Object.keys(value).sort()`, lifted to key-value
pairs. -/
def keyLe {β : Type} (a b : String × β) : Prop :=
  strLeB a.1.data b.1.data = true

instance {β : Type} : DecidableRel (keyLe (β := β)) :=
  fun a b => decidable_of_iff (strLeB a.1.data b.1.data = true) Iff.rfl

theorem strLeB_total : ∀ a b : List Char, strLeB a b = true ∨ strLeB b a = true := by
  intro a
  induction a with
  | nil => intro b; exact Or.inl rfl
  | cons x xs ih =>
    intro b
    cases b with
    | nil => exact Or.inr rfl
    | cons y ys =>
      by_cases h1 : x.toNat < y.toNat
      · exact Or.inl (by simp [strLeB, h1])
      · by_cases h2 : y.toNat < x.toNat
        · exact Or.inr (by simp [strLeB, h2])
        · have hxy : y.toNat = x.toNat := by omega
          rcases ih ys with h | h
          · exact Or.inl (by simp [strLeB, h1, h2, h])
          · exact Or.inr (by simp [strLeB, h1, h2, hxy, h])

theorem strLeB_trans :
    ∀ a b c : List Char, strLeB a b = true → strLeB b c = true →
      strLeB a c = true := by
  intro a
  induction a with
  | nil => intro b c _ _; rfl
  | cons x xs ih =>
    intro b c hab hbc
    cases b with
    | nil => exact absurd hab (by simp [strLeB])
    | cons y ys =>
      cases c with
      | nil => exact absurd hbc (by simp [strLeB])
      | cons z zs =>
        simp only [strLeB] at hab hbc ⊢
        rcases Nat.lt_trichotomy x.toNat y.toNat with hxy | hxy | hxy
        · rcases Nat.lt_trichotomy y.toNat z.toNat with hyz | hyz | hyz
          · simp [show x.toNat < z.toNat by omega]
          · simp [show x.toNat < z.toNat by omega]
          · simp [show ¬ y.toNat < z.toNat by omega, hyz] at hbc
        · rcases Nat.lt_trichotomy y.toNat z.toNat with hyz | hyz | hyz
          · simp [show x.toNat < z.toNat by omega]
          · have hab2 : strLeB xs ys = true := by
              simpa [show ¬ x.toNat < y.toNat by omega,
                show ¬ y.toNat < x.toNat by omega] using hab
            have hbc2 : strLeB ys zs = true := by
              simpa [show ¬ y.toNat < z.toNat by omega,
                show ¬ z.toNat < y.toNat by omega] using hbc
            simp [show ¬ x.toNat < z.toNat by omega,
              show ¬ z.toNat < x.toNat by omega, ih ys zs hab2 hbc2]
          · simp [show ¬ y.toNat < z.toNat by omega, hyz] at hbc
        · simp [show ¬ x.toNat < y.toNat by omega, hxy] at hab

theorem strLeB_antisymm :
    ∀ a b : List Char, strLeB a b = true → strLeB b a = true → a = b := by
  intro a
  induction a with
  | nil =>
    intro b _ hba
    cases b with
    | nil => rfl
    | cons y ys => exact absurd hba (by simp [strLeB])
  | cons x xs ih =>
    intro b hab hba
    cases b with
    | nil => exact absurd hab (by simp [strLeB])
    | cons y ys =>
      simp only [strLeB] at hab hba
      rcases Nat.lt_trichotomy x.toNat y.toNat with hxy | hxy | hxy
      · simp [show ¬ y.toNat < x.toNat by omega, hxy] at hba
      · have hchar : x = y := by
          have hnat : x.toNat = y.toNat := by omega
          exact Char.eq_of_val_eq (UInt32.eq_of_toBitVec_eq
            (BitVec.eq_of_toNat_eq hnat))
        have hab2 : strLeB xs ys = true := by
          simpa [show ¬ x.toNat < y.toNat by omega,
            show ¬ y.toNat < x.toNat by omega] using hab
        have hba2 : strLeB ys xs = true := by
          simpa [show ¬ y.toNat < x.toNat by omega,
            show ¬ x.toNat < y.toNat by omega] using hba
        rw [hchar, ih ys hab2 hba2]
      · simp [show ¬ x.toNat < y.toNat by omega, hxy] at hab

instance {β : Type} : IsTotal (String × β) keyLe :=
  ⟨fun a b => strLeB_total a.1.data b.1.data⟩

instance {β : Type} : IsTrans (String × β) keyLe :=
  ⟨fun _ _ _ h1 h2 => strLeB_trans _ _ _ h1 h2⟩

/-- Sorting the bindings of an object by key: for a JS object (whose
keys are distinct) this is the effect of enumerating
`Object.keys(value).sort()`. -/
def sortByKey {β : Type} (kvs : List (String × β)) : List (String × β) :=
  List.insertionSort keyLe kvs

mutual
/-- The `sorter` recursion of `stableJsonStringify` on tree values.  The
JS source sorts an object's keys first and then recurses into the values
in sorted order; because the comparator reads only keys and the
recursion is pointwise on the values, recursing first and sorting the
rebuilt pairs afterwards produces the same list (`sortTreeKVs_sortByKey`
below makes the exchange precise), and keeps the recursion structural. -/
def sortTree : J → J
  | J.null => J.null
  | J.bool b => J.bool b
  | J.num n => J.num n
  | J.str s => J.str s
  | J.arr l => J.arr (sortTreeList l)
  | J.obj kvs => J.obj (sortByKey (sortTreeKVs kvs))

/-- Elementwise `sorter` on an array's elements. -/
def sortTreeList : List J → List J
  | [] => []
  | t :: ts => sortTree t :: sortTreeList ts

/-- Pointwise `sorter` on an object's values. -/
def sortTreeKVs : List (String × J) → List (String × J)
  | [] => []
  | (k, v) :: rest => (k, sortTree v) :: sortTreeKVs rest
end

/-- Hexadecimal digit for JSON escapes. -/
def hexDigit (n : Nat) : Char :=
  if n < 10 then Char.ofNat (48 + n) else Char.ofNat (87 + n)

/-- `JSON.stringify` escaping of one string character. -/
def escChar (c : Char) : String :=
  if c = '"' then "\\\""
  else if c = '\\' then "\\\\"
  else if c = Char.ofNat 8 then "\\b"
  else if c = Char.ofNat 9 then "\\t"
  else if c = Char.ofNat 10 then "\\n"
  else if c = Char.ofNat 12 then "\\f"
  else if c = Char.ofNat 13 then "\\r"
  else if c.toNat < 32 then
    "\\u00" ++ String.mk [hexDigit (c.toNat / 16), hexDigit (c.toNat % 16)]
  else String.singleton c

/-- `JSON.stringify` quoting of a string. -/
def jsonQuote (s : String) : String :=
  "\"" ++ String.join (s.data.map escChar) ++ "\""

mutual
/-- `JSON.stringify` (no indentation) of a tree value. -/
def stringifyJ : J → String
  | J.null => "null"
  | J.bool true => "true"
  | J.bool false => "false"
  | J.num n => toString n
  | J.str s => jsonQuote s
  | J.arr l => "[" ++ stringifyJArr l ++ "]"
  | J.obj kvs => "\x7b" ++ stringifyJObj kvs ++ "\x7d"

/-- Comma-joined stringification of array elements. -/
def stringifyJArr : List J → String
  | [] => ""
  | [t] => stringifyJ t
  | t :: ts => stringifyJ t ++ "," ++ stringifyJArr ts

/-- Comma-joined stringification of object bindings. -/
def stringifyJObj : List (String × J) → String
  | [] => ""
  | [(k, v)] => jsonQuote k ++ ":" ++ stringifyJ v
  | (k, v) :: rest => jsonQuote k ++ ":" ++ stringifyJ v ++ "," ++ stringifyJObj rest
end

/-- `stableJsonStringify` on a tree-shaped value: rebuild with sorted
keys, then emit canonical bytes. -/
def stableJsonStringify (t : J) : String :=
  stringifyJ (sortTree t)

example : stableJsonStringify (J.obj [("b", J.num 1), ("a", J.null)]) =
    "\x7b\"a\":null,\"b\":1\x7d" := by decide
example : stableJsonStringify (J.arr [J.str "x", J.bool true]) =
    "[\"x\",true]" := by decide

mutual
/-- Structural equality of two tree values: identical primitives,
pointwise equal arrays, and objects whose distinct-keyed bindings are a
reordering of one another with structurally equal values — the formal
reading of "structurally equal values whose objects had keys inserted in
different orders". -/
inductive StructEq : J → J → Prop where
  | null : StructEq J.null J.null
  | bool (b : Bool) : StructEq (J.bool b) (J.bool b)
  | num (n : Int) : StructEq (J.num n) (J.num n)
  | str (s : String) : StructEq (J.str s) (J.str s)
  | arr {l1 l2 : List J} : StructEqList l1 l2 → StructEq (J.arr l1) (J.arr l2)
  | obj {kvs1 mid kvs2 : List (String × J)} :
      (kvs1.map Prod.fst).Nodup → (kvs2.map Prod.fst).Nodup →
      kvs1.Perm mid → StructEqKVs mid kvs2 →
      StructEq (J.obj kvs1) (J.obj kvs2)

/-- Pointwise structural equality of array elements. -/
inductive StructEqList : List J → List J → Prop where
  | nil : StructEqList [] []
  | cons {a b : J} {as bs : List J} : StructEq a b → StructEqList as bs →
      StructEqList (a :: as) (b :: bs)

/-- Pointwise structural equality of object bindings with equal keys. -/
inductive StructEqKVs : List (String × J) → List (String × J) → Prop where
  | nil : StructEqKVs [] []
  | cons {k : String} {v1 v2 : J} {r1 r2 : List (String × J)} :
      StructEq v1 v2 → StructEqKVs r1 r2 →
      StructEqKVs ((k, v1) :: r1) ((k, v2) :: r2)
end

mutual
/-- Size measure for the recursion over tree values. -/
def jSize : J → Nat
  | J.null => 1
  | J.bool _ => 1
  | J.num _ => 1
  | J.str _ => 1
  | J.arr l => 1 + jSizeList l
  | J.obj kvs => 1 + jSizeKVs kvs

/-- Size of an array's elements. -/
def jSizeList : List J → Nat
  | [] => 0
  | t :: ts => jSize t + jSizeList ts + 1

/-- Size of an object's bindings. -/
def jSizeKVs : List (String × J) → Nat
  | [] => 0
  | (_, v) :: rest => jSize v + jSizeKVs rest + 1
end

theorem jSize_le_of_mem : ∀ {l : List J} {t : J}, t ∈ l → jSize t ≤ jSizeList l := by
  intro l
  induction l with
  | nil => intro t h; exact absurd h (by simp)
  | cons a as ih =>
    intro t h
    rcases List.mem_cons.1 h with rfl | h
    · simp [jSizeList]; omega
    · have := ih h
      simp [jSizeList]; omega

theorem jSizeKVs_le_of_mem :
    ∀ {kvs : List (String × J)} {k : String} {v : J},
      (k, v) ∈ kvs → jSize v ≤ jSizeKVs kvs := by
  intro kvs
  induction kvs with
  | nil => intro k v h; exact absurd h (by simp)
  | cons a rest ih =>
    intro k v h
    rcases List.mem_cons.1 h with rfl | h
    · simp [jSizeKVs]; omega
    · have := ih h
      rcases a with ⟨k2, v2⟩
      simp [jSizeKVs]; omega

theorem jSizeKVs_eq_sum (kvs : List (String × J)) :
    jSizeKVs kvs = (kvs.map fun kv => jSize kv.2 + 1).sum := by
  induction kvs with
  | nil => rfl
  | cons a rest ih =>
    rcases a with ⟨k, v⟩
    simp [jSizeKVs, ih]
    omega

theorem jSizeKVs_perm {l1 l2 : List (String × J)} (h : l1.Perm l2) :
    jSizeKVs l1 = jSizeKVs l2 := by
  rw [jSizeKVs_eq_sum, jSizeKVs_eq_sum]
  exact (h.map _).sum_eq

theorem sortTreeKVs_eq_map (kvs : List (String × J)) :
    sortTreeKVs kvs = kvs.map fun kv => (kv.1, sortTree kv.2) := by
  induction kvs with
  | nil => rfl
  | cons a rest ih =>
    rcases a with ⟨k, v⟩
    simp [sortTreeKVs, ih]

theorem sortTreeKVs_keys (kvs : List (String × J)) :
    (sortTreeKVs kvs).map Prod.fst = kvs.map Prod.fst := by
  rw [sortTreeKVs_eq_map, List.map_map]
  rfl

theorem sortedKV_unique :
    ∀ (A B : List (String × J)), A.Perm B → List.Sorted keyLe A →
      List.Sorted keyLe B → (A.map Prod.fst).Nodup → A = B := by
  intro A
  induction A with
  | nil =>
    intro B hp _ _ _
    exact (List.Perm.eq_nil hp.symm).symm
  | cons a as ihA =>
    intro B hp hsA hsB hnd
    cases B with
    | nil =>
      have := List.Perm.eq_nil hp
      simp at this
    | cons b bs =>
      have hab : a = b := by
        have haB : a ∈ b :: bs := hp.mem_iff.1 (List.mem_cons_self a as)
        have hbA : b ∈ a :: as := hp.symm.mem_iff.1 (List.mem_cons_self b bs)
        rcases List.mem_cons.1 haB with h | haB2
        · exact h
        · rcases List.mem_cons.1 hbA with h | hbA2
          · exact h.symm
          · exfalso
            have h1 : keyLe a b := (List.sorted_cons.1 hsA).1 b hbA2
            have h2 : keyLe b a := (List.sorted_cons.1 hsB).1 a haB2
            have hk : a.1 = b.1 := by
              apply String.ext
              exact strLeB_antisymm _ _ h1 h2
            have hnd2 : a.1 ∉ as.map Prod.fst :=
              (List.nodup_cons.1 (by simpa using hnd)).1
            exact hnd2 (by rw [hk]; exact List.mem_map_of_mem Prod.fst hbA2)
      subst hab
      have hp2 : as.Perm bs := hp.cons_inv
      have h3 := ihA bs hp2 (List.sorted_cons.1 hsA).2 (List.sorted_cons.1 hsB).2
        (List.nodup_cons.1 (by simpa using hnd)).2
      rw [h3]

theorem sortByKey_eq_of_perm {A B : List (String × J)} (hp : A.Perm B)
    (hnd : (A.map Prod.fst).Nodup) : sortByKey A = sortByKey B := by
  refine sortedKV_unique _ _ ?_ ?_ ?_ ?_
  · exact (List.perm_insertionSort keyLe A).trans
      (hp.trans (List.perm_insertionSort keyLe B).symm)
  · exact List.sorted_insertionSort keyLe A
  · exact List.sorted_insertionSort keyLe B
  · exact (((List.perm_insertionSort keyLe A).map Prod.fst).nodup_iff).2 hnd

/-- Sorting the bindings commutes with rebuilding the values: the order
in which the JS source interleaves `Object.keys(value).sort()` and the
recursion into values does not affect the result. -/
theorem sortTreeKVs_sortByKey (kvs : List (String × J)) :
    sortTreeKVs (sortByKey kvs) = sortByKey (sortTreeKVs kvs) := by
  rw [sortTreeKVs_eq_map, sortTreeKVs_eq_map, sortByKey, sortByKey]
  exact List.map_insertionSort keyLe keyLe _ kvs fun a _ b _ => Iff.rfl

theorem structEq_sortTree_aux :
    ∀ n : Nat, ∀ t1 t2 : J, jSize t1 ≤ n → StructEq t1 t2 →
      sortTree t1 = sortTree t2 := by
  intro n
  induction n with
  | zero =>
    intro t1 t2 hs _
    exfalso
    have h1 : 1 ≤ jSize t1 := by cases t1 <;> simp [jSize]
    omega
  | succ n ihn =>
    intro t1 t2 hs h
    cases h with
    | null => rfl
    | bool b => rfl
    | num m => rfl
    | str s => rfl
    | @arr l1 l2 hl =>
      have hsz : jSizeList l1 ≤ n := by
        simp only [jSize] at hs
        omega
      have inner : ∀ (p1 p2 : List J), jSizeList p1 ≤ n → StructEqList p1 p2 →
          sortTreeList p1 = sortTreeList p2 := by
        intro p1
        induction p1 with
        | nil =>
          intro p2 _ h2
          cases h2
          rfl
        | cons a as ihl =>
          intro p2 hsz2 h2
          cases h2 with
          | @cons _ b _ bs hab hrest =>
            have ha := ihn a b (by simp only [jSizeList] at hsz2; omega) hab
            have hr := ihl bs (by simp only [jSizeList] at hsz2; omega) hrest
            simp only [sortTreeList, ha, hr]
      exact congrArg J.arr (inner l1 l2 hsz hl)
    | @obj kvs1 mid kvs2 h1 h2 hperm hkv =>
      have hsz : jSizeKVs kvs1 ≤ n := by
        simp only [jSize] at hs
        omega
      have hszmid : jSizeKVs mid ≤ n := by
        rw [← jSizeKVs_perm hperm]
        exact hsz
      have inner : ∀ (r1 r2 : List (String × J)), jSizeKVs r1 ≤ n →
          StructEqKVs r1 r2 → sortTreeKVs r1 = sortTreeKVs r2 := by
        intro r1
        induction r1 with
        | nil =>
          intro r2 _ hk
          cases hk
          rfl
        | cons a rest ihr =>
          intro r2 hsz2 hk
          cases hk with
          | @cons k v1 v2 _ r2t hv hrest =>
            have hv2 := ihn v1 v2 (by simp only [jSizeKVs] at hsz2; omega) hv
            have hr2 := ihr r2t (by simp only [jSizeKVs] at hsz2; omega) hrest
            simp only [sortTreeKVs, hv2, hr2]
      have hmid : sortTreeKVs mid = sortTreeKVs kvs2 := inner mid kvs2 hszmid hkv
      have hpermS : (sortTreeKVs kvs1).Perm (sortTreeKVs mid) := by
        rw [sortTreeKVs_eq_map, sortTreeKVs_eq_map]
        exact hperm.map _
      have hndS : ((sortTreeKVs kvs1).map Prod.fst).Nodup := by
        rw [sortTreeKVs_keys]
        exact h1
      refine congrArg J.obj ?_
      rw [← hmid]
      exact sortByKey_eq_of_perm hpermS hndS

/-- C8: the canonical serializer is key-order independent — two acyclic,
unshared JSON values that are structurally equal up to the insertion
order of object keys serialize to identical canonical bytes (arrays keep
their element order and primitives pass through unchanged, as the
`sortTree` equations state). -/
theorem stableJsonStringify_order_independent (t1 t2 : J) (h : StructEq t1 t2) :
    stableJsonStringify t1 = stableJsonStringify t2 :=
  congrArg stringifyJ (structEq_sortTree_aux (jSize t1) t1 t2 le_rfl h)

/-- Closed instance of `stableJsonStringify_order_independent`: the same
two-key object built in both key orders serializes identically. -/
theorem stableJsonStringify_order_independent_witness :
    stableJsonStringify (J.obj [("b", J.num 1), ("a", J.str "x")]) =
      stableJsonStringify (J.obj [("a", J.str "x"), ("b", J.num 1)]) := by
  refine stableJsonStringify_order_independent _ _ ?_
  refine StructEq.obj (by decide) (by decide)
    (List.Perm.swap ("a", J.str "x") ("b", J.num 1) []) ?_
  exact StructEqKVs.cons (StructEq.str "x")
    (StructEqKVs.cons (StructEq.num 1) StructEqKVs.nil)

/-! ## Circular-structure detection (`stableJsonStringify`,
build-data.mjs:30-39)

The `seen` WeakSet stores object references and the `sorter` adds every
visited object node without ever removing it, so object identity
matters.  Values are modelled over a store of numbered object nodes: a
`JRef` is a primitive or a reference to a node id, and two occurrences
of the same id are two references to the same JS object.  A fuel
parameter bounds the expansion depth; the theorems use enough fuel that
the fuel error is unreachable, and the `seen` test fires before fuel is
consulted, exactly as in the source. -/

/-- A JSON-compatible value position: a primitive or a reference to an
object node in the store. -/
inductive JRef where
  | null : JRef
  | bool (b : Bool) : JRef
  | num (n : Int) : JRef
  | str (s : String) : JRef
  | ref (id : Nat) : JRef
deriving DecidableEq, Repr

/-- An object node: an array of positions or an object of keyed
positions. -/
inductive JNode where
  | arr (elems : List JRef) : JNode
  | obj (kvs : List (String × JRef)) : JNode
deriving DecidableEq, Repr

/-- A heap of object nodes addressed by identity. -/
abbrev Store := List (Nat × JNode)

/-- Failure modes of the modelled traversal: `circular` is the thrown
"Cannot stringify circular structure"; `fuel` marks exhausted modelling
fuel; `dangling` marks a reference missing from the store (impossible
for states reachable from a JS value). -/
inductive SortErr where
  | circular : SortErr
  | fuel : SortErr
  | dangling : SortErr
deriving DecidableEq, Repr

/-- The element loop of the `sorter` over an array's positions, threading
the `seen` set through a supplied per-position traversal. -/
def sortArrWith (f : List Nat → JRef → Except SortErr (J × List Nat)) :
    List Nat → List JRef → Except SortErr (List J × List Nat)
  | seen, [] => Except.ok ([], seen)
  | seen, v :: rest =>
    match f seen v with
    | Except.error e => Except.error e
    | Except.ok (j, seen2) =>
      match sortArrWith f seen2 rest with
      | Except.error e => Except.error e
      | Except.ok (js, seen3) => Except.ok (j :: js, seen3)

/-- The binding loop of the `sorter` over an object's bindings in sorted
key order. -/
def sortObjWith (f : List Nat → JRef → Except SortErr (J × List Nat)) :
    List Nat → List (String × JRef) →
      Except SortErr (List (String × J) × List Nat)
  | seen, [] => Except.ok ([], seen)
  | seen, (k, v) :: rest =>
    match f seen v with
    | Except.error e => Except.error e
    | Except.ok (j, seen2) =>
      match sortObjWith f seen2 rest with
      | Except.error e => Except.error e
      | Except.ok (kvs, seen3) => Except.ok ((k, j) :: kvs, seen3)

/-- The `sorter` of `stableJsonStringify` over store-allocated values:
primitives pass through, a reference already in `seen` throws
`CircularStructure`, and otherwise the node is expanded with its id
added to `seen` (and never removed).  The `seen` test fires before fuel
is consulted, exactly as in the source. -/
def sortRef (st : Store) : Nat → List Nat → JRef → Except SortErr (J × List Nat)
  | _, seen, JRef.null => Except.ok (J.null, seen)
  | _, seen, JRef.bool b => Except.ok (J.bool b, seen)
  | _, seen, JRef.num n => Except.ok (J.num n, seen)
  | _, seen, JRef.str s => Except.ok (J.str s, seen)
  | 0, seen, JRef.ref n =>
    if n ∈ seen then Except.error SortErr.circular
    else
      match List.lookup n st with
      | none => Except.error SortErr.dangling
      | some _ => Except.error SortErr.fuel
  | fuel + 1, seen, JRef.ref n =>
    if n ∈ seen then Except.error SortErr.circular
    else
      match List.lookup n st with
      | none => Except.error SortErr.dangling
      | some (JNode.arr l) =>
        match sortArrWith (sortRef st fuel) (n :: seen) l with
        | Except.error e => Except.error e
        | Except.ok (l2, seen2) => Except.ok (J.arr l2, seen2)
      | some (JNode.obj kvs) =>
        match sortObjWith (sortRef st fuel) (n :: seen) (sortByKey kvs) with
        | Except.error e => Except.error e
        | Except.ok (kvs2, seen2) => Except.ok (J.obj kvs2, seen2)

/-- Outgoing node references of a node. -/
def nodeRefs : JNode → List Nat
  | JNode.arr l => l.filterMap fun v =>
      match v with
      | JRef.ref n => some n
      | _ => none
  | JNode.obj kvs => kvs.filterMap fun kv =>
      match kv.2 with
      | JRef.ref n => some n
      | _ => none

/-- Decidable absence of cycles from a node: no node id recurs on any
reference path while its depth-first traversal is still open — the
claim's reading of "direct or indirect self-reference".  Fuel bounds
path length; any value at least the store size suffices. -/
def noCycleFrom (st : Store) : Nat → List Nat → Nat → Bool
  | 0, _, _ => false
  | fuel + 1, path, n =>
    if n ∈ path then false
    else
      match List.lookup n st with
      | none => true
      | some nd => (nodeRefs nd).all (noCycleFrom st fuel (n :: path))

/-- A store in which node 0 is an array sharing node 1 (an empty object)
in two sibling positions: a DAG with no cycle. -/
def storeShared : Store :=
  [(0, JNode.arr [JRef.ref 1, JRef.ref 1]), (1, JNode.obj [])]

example : sortRef storeShared 10 [] (JRef.ref 0) =
    Except.error SortErr.circular := by rfl
example : noCycleFrom storeShared 10 [] 0 = true := by rfl

/-- C2 counterexample: serializing the shared-node DAG of `storeShared`
throws `CircularStructure` although the value has no direct or indirect
self-reference, refuting "fails if and only if a cycle exists". -/
theorem serializer_shared_node_counterexample :
    noCycleFrom storeShared 10 [] 0 = true ∧
    sortRef storeShared 10 [] (JRef.ref 0) = Except.error SortErr.circular :=
  ⟨rfl, rfl⟩

theorem sortArrWith_seen_aux
    (f : List Nat → JRef → Except SortErr (J × List Nat))
    (Hf : ∀ (seen : List Nat) (v : JRef) (j : J) (s2 : List Nat),
      f seen v = Except.ok (j, s2) →
      ∃ new, s2 = new ++ seen ∧ new.Nodup ∧ ∀ x ∈ new, x ∉ seen) :
    ∀ (l : List JRef) (seen : List Nat) (js : List J) (s3 : List Nat),
      sortArrWith f seen l = Except.ok (js, s3) →
      ∃ new, s3 = new ++ seen ∧ new.Nodup ∧ ∀ x ∈ new, x ∉ seen := by
  intro l
  induction l with
  | nil =>
    intro seen js s3 heq
    simp only [sortArrWith, Except.ok.injEq, Prod.mk.injEq] at heq
    exact ⟨[], by rw [← heq.2, List.nil_append], List.nodup_nil, by simp⟩
  | cons v rest ih =>
    intro seen js s3 heq
    simp only [sortArrWith] at heq
    cases hv : f seen v with
    | error e => simp [hv] at heq
    | ok p =>
      rcases p with ⟨j1, s1⟩
      simp only [hv] at heq
      cases hrest : sortArrWith f s1 rest with
      | error e => simp [hrest] at heq
      | ok q =>
        rcases q with ⟨js2, s4⟩
        simp only [hrest] at heq
        simp only [Except.ok.injEq, Prod.mk.injEq] at heq
        obtain ⟨new1, hs1, hnd1, hdisj1⟩ := Hf seen v j1 s1 hv
        obtain ⟨new2, hs2, hnd2, hdisj2⟩ := ih s1 js2 s4 hrest
        refine ⟨new2 ++ new1, ?_, ?_, ?_⟩
        · rw [← heq.2, hs2, hs1, List.append_assoc]
        · rw [List.nodup_append]
          refine ⟨hnd2, hnd1, fun x hx2 hx1 => ?_⟩
          exact hdisj2 x hx2 (by rw [hs1]; exact List.mem_append_left seen hx1)
        · intro x hx
          rcases List.mem_append.1 hx with hx2 | hx1
          · intro hxseen
            exact hdisj2 x hx2 (by rw [hs1]; exact List.mem_append_right new1 hxseen)
          · exact hdisj1 x hx1

theorem sortObjWith_seen_aux
    (f : List Nat → JRef → Except SortErr (J × List Nat))
    (Hf : ∀ (seen : List Nat) (v : JRef) (j : J) (s2 : List Nat),
      f seen v = Except.ok (j, s2) →
      ∃ new, s2 = new ++ seen ∧ new.Nodup ∧ ∀ x ∈ new, x ∉ seen) :
    ∀ (kvs : List (String × JRef)) (seen : List Nat)
      (out : List (String × J)) (s3 : List Nat),
      sortObjWith f seen kvs = Except.ok (out, s3) →
      ∃ new, s3 = new ++ seen ∧ new.Nodup ∧ ∀ x ∈ new, x ∉ seen := by
  intro kvs
  induction kvs with
  | nil =>
    intro seen out s3 heq
    simp only [sortObjWith, Except.ok.injEq, Prod.mk.injEq] at heq
    exact ⟨[], by rw [← heq.2, List.nil_append], List.nodup_nil, by simp⟩
  | cons a rest ih =>
    intro seen out s3 heq
    rcases a with ⟨k, v⟩
    simp only [sortObjWith] at heq
    cases hv : f seen v with
    | error e => simp [hv] at heq
    | ok p =>
      rcases p with ⟨j1, s1⟩
      simp only [hv] at heq
      cases hrest : sortObjWith f s1 rest with
      | error e => simp [hrest] at heq
      | ok q =>
        rcases q with ⟨out2, s4⟩
        simp only [hrest] at heq
        simp only [Except.ok.injEq, Prod.mk.injEq] at heq
        obtain ⟨new1, hs1, hnd1, hdisj1⟩ := Hf seen v j1 s1 hv
        obtain ⟨new2, hs2, hnd2, hdisj2⟩ := ih s1 out2 s4 hrest
        refine ⟨new2 ++ new1, ?_, ?_, ?_⟩
        · rw [← heq.2, hs2, hs1, List.append_assoc]
        · rw [List.nodup_append]
          refine ⟨hnd2, hnd1, fun x hx2 hx1 => ?_⟩
          exact hdisj2 x hx2 (by rw [hs1]; exact List.mem_append_left seen hx1)
        · intro x hx
          rcases List.mem_append.1 hx with hx2 | hx1
          · intro hxseen
            exact hdisj2 x hx2 (by rw [hs1]; exact List.mem_append_right new1 hxseen)
          · exact hdisj1 x hx1

theorem sortRef_seen_aux (st : Store) :
    ∀ (fuel : Nat) (seen : List Nat) (v : JRef) (j : J) (s2 : List Nat),
      sortRef st fuel seen v = Except.ok (j, s2) →
      ∃ new, s2 = new ++ seen ∧ new.Nodup ∧ ∀ x ∈ new, x ∉ seen := by
  intro fuel
  induction fuel with
  | zero =>
    intro seen v j s2 heq
    rcases v with - | b | m | s | n
    · simp only [sortRef, Except.ok.injEq, Prod.mk.injEq] at heq
      exact ⟨[], by rw [← heq.2, List.nil_append], List.nodup_nil, by simp⟩
    · simp only [sortRef, Except.ok.injEq, Prod.mk.injEq] at heq
      exact ⟨[], by rw [← heq.2, List.nil_append], List.nodup_nil, by simp⟩
    · simp only [sortRef, Except.ok.injEq, Prod.mk.injEq] at heq
      exact ⟨[], by rw [← heq.2, List.nil_append], List.nodup_nil, by simp⟩
    · simp only [sortRef, Except.ok.injEq, Prod.mk.injEq] at heq
      exact ⟨[], by rw [← heq.2, List.nil_append], List.nodup_nil, by simp⟩
    · by_cases hn : n ∈ seen
      · simp [sortRef, hn] at heq
      · simp only [sortRef, if_neg hn] at heq
        cases hl : List.lookup n st with
        | none => simp [hl] at heq
        | some nd => simp [hl] at heq
  | succ fuel ih =>
    intro seen v j s2 heq
    rcases v with - | b | m | s | n
    · simp only [sortRef, Except.ok.injEq, Prod.mk.injEq] at heq
      exact ⟨[], by rw [← heq.2, List.nil_append], List.nodup_nil, by simp⟩
    · simp only [sortRef, Except.ok.injEq, Prod.mk.injEq] at heq
      exact ⟨[], by rw [← heq.2, List.nil_append], List.nodup_nil, by simp⟩
    · simp only [sortRef, Except.ok.injEq, Prod.mk.injEq] at heq
      exact ⟨[], by rw [← heq.2, List.nil_append], List.nodup_nil, by simp⟩
    · simp only [sortRef, Except.ok.injEq, Prod.mk.injEq] at heq
      exact ⟨[], by rw [← heq.2, List.nil_append], List.nodup_nil, by simp⟩
    · by_cases hn : n ∈ seen
      · simp [sortRef, hn] at heq
      · simp only [sortRef, if_neg hn] at heq
        cases hl : List.lookup n st with
        | none => simp [hl] at heq
        | some nd =>
          simp only [hl] at heq
          cases nd with
          | arr l =>
            cases harr : sortArrWith (sortRef st fuel) (n :: seen) l with
            | error e => simp [harr] at heq
            | ok p =>
              rcases p with ⟨l2, s4⟩
              simp only [harr] at heq
              simp only [Except.ok.injEq, Prod.mk.injEq] at heq
              obtain ⟨new, hs, hnd, hdisj⟩ :=
                sortArrWith_seen_aux (sortRef st fuel) ih l (n :: seen) l2 s4 harr
              refine ⟨new ++ [n], ?_, ?_, ?_⟩
              · rw [← heq.2, hs, List.append_assoc, List.singleton_append]
              · rw [List.nodup_append]
                refine ⟨hnd, List.nodup_singleton n, fun x hx hx1 => ?_⟩
                rw [List.mem_singleton] at hx1
                exact hdisj x hx (by rw [hx1]; exact List.mem_cons_self n seen)
              · intro x hx
                rcases List.mem_append.1 hx with hx2 | hx1
                · intro hxs
                  exact hdisj x hx2 (List.mem_cons_of_mem n hxs)
                · rw [List.mem_singleton] at hx1
                  rw [hx1]
                  exact hn
          | obj kvs =>
            cases hobj : sortObjWith (sortRef st fuel) (n :: seen) (sortByKey kvs) with
            | error e => simp [hobj] at heq
            | ok p =>
              rcases p with ⟨out2, s4⟩
              simp only [hobj] at heq
              simp only [Except.ok.injEq, Prod.mk.injEq] at heq
              obtain ⟨new, hs, hnd, hdisj⟩ :=
                sortObjWith_seen_aux (sortRef st fuel) ih (sortByKey kvs)
                  (n :: seen) out2 s4 hobj
              refine ⟨new ++ [n], ?_, ?_, ?_⟩
              · rw [← heq.2, hs, List.append_assoc, List.singleton_append]
              · rw [List.nodup_append]
                refine ⟨hnd, List.nodup_singleton n, fun x hx hx1 => ?_⟩
                rw [List.mem_singleton] at hx1
                exact hdisj x hx (by rw [hx1]; exact List.mem_cons_self n seen)
              · intro x hx
                rcases List.mem_append.1 hx with hx2 | hx1
                · intro hxs
                  exact hdisj x hx2 (List.mem_cons_of_mem n hxs)
                · rw [List.mem_singleton] at hx1
                  rw [hx1]
                  exact hn

/-- C2 amended: the traversal's `seen` set records every object node
encountered and is never pruned when a node's traversal closes, so the
serializer throws `CircularStructure` whenever the same object node is
encountered a second time anywhere in the traversal, open or closed: a
reference to a node already in the seen set throws in every store, at
every fuel and in every context; a node whose array directly contains a
reference to itself always throws; and a successful traversal never
encounters any node twice — the node ids it adds to the seen set are
pairwise distinct and disjoint from those already seen.  Sharing alone
therefore throws exactly like a cycle. -/
theorem serializer_seen_spec :
    (∀ (st : Store) (fuel : Nat) (seen : List Nat) (n : Nat), n ∈ seen →
      sortRef st fuel seen (JRef.ref n) = Except.error SortErr.circular) ∧
    (∀ (st : Store) (n : Nat) (seen : List Nat) (fuel : Nat),
      List.lookup n st = some (JNode.arr [JRef.ref n]) →
      sortRef st (fuel + 1) seen (JRef.ref n) = Except.error SortErr.circular) ∧
    (∀ (st : Store) (fuel : Nat) (seen : List Nat) (v : JRef) (j : J)
      (s2 : List Nat),
      sortRef st fuel seen v = Except.ok (j, s2) →
      ∃ new, s2 = new ++ seen ∧ new.Nodup ∧ ∀ x ∈ new, x ∉ seen) := by
  refine ⟨?_, ?_, ?_⟩
  · intro st fuel seen n h
    cases fuel <;> simp only [sortRef, if_pos h]
  · intro st n seen fuel hlook
    by_cases hn : n ∈ seen
    · simp only [sortRef, if_pos hn]
    · have hinner : sortRef st fuel (n :: seen) (JRef.ref n) =
          Except.error SortErr.circular := by
        cases fuel <;> simp only [sortRef, if_pos (List.mem_cons_self n seen)]
      simp only [sortRef, if_neg hn, hlook, sortArrWith, hinner]
  · intro st fuel seen v j s2 heq
    exact sortRef_seen_aux st fuel seen v j s2 heq

/-- A store in which node 0 directly references itself. -/
def storeSelf : Store := [(0, JNode.arr [JRef.ref 0])]

/-- Closed instances of `serializer_seen_spec`: a reference to an
already-seen node throws, a direct self-reference throws, and a
successful run of the shared store's object node reports exactly one
new distinct node. -/
theorem serializer_seen_spec_witness :
    sortRef storeShared 3 [1] (JRef.ref 1) = Except.error SortErr.circular ∧
    sortRef storeSelf 5 [] (JRef.ref 0) = Except.error SortErr.circular ∧
    (∃ new, ([1] : List Nat) = new ++ [] ∧ new.Nodup ∧
      ∀ x ∈ new, x ∉ ([] : List Nat)) := by
  refine ⟨?_, ?_, ?_⟩
  · exact serializer_seen_spec.1 storeShared 3 [1] 1 (by decide)
  · exact serializer_seen_spec.2.1 storeSelf 0 [] 4 rfl
  · exact serializer_seen_spec.2.2 storeShared 10 [] (JRef.ref 1) (J.obj []) [1] rfl
